import Mathlib

/-!
Verification of the material-design-icons build scripts.

The repository's only executable logic is:
* a codepoint-to-catalog ("ijmap") converter, in two historical versions:
  - `gulpfile` version (`codepointsToIjmap` in the gulp build script): splits
    each line on single spaces and titleizes the name with underscore.string's
    `titleize(humanize(name))`;
  - standalone version (`iconfont/iconjar-map.js`): matches each line against
    the regex `(.*)\s([a-f0-9]+)/i` and builds the name with
    `toLowerCase().replace(/[^a-z]+/gi,' ').replace(/\b[a-z]/g, up).trim()`;
* a sprite build fan-out (`png-sprites`, `svg-sprites` gulp tasks) over a
  hard-coded category × color grid;
* generated React icon components (one `<svg>` with spread-after-defaults
  props wrapping a fixed `<path>`).

Strings are modelled as `List Char`; all inputs in scope are ASCII text
(the codepoints file and icon identifiers), so the ASCII fragments of
JavaScript's `toLowerCase`/`toUpperCase`/`trim` are embedded.
-/

namespace MD

/-! ## Character classes (ASCII) -/

/-- JavaScript `\s` on the ASCII range: space, tab, LF, CR, VT, FF. -/
def isJsWS (c : Char) : Bool :=
  c == ' ' || c == '\t' || c == '\n' || c == '\r' || c == '\x0b' || c == '\x0c'

/-- Class `[a-z]`. -/
def isLowerAZ (c : Char) : Bool :=
  decide (97 ≤ c.toNat ∧ c.toNat ≤ 122)

/-- Class `[A-Z]`. -/
def isUpperAZ (c : Char) : Bool :=
  decide (65 ≤ c.toNat ∧ c.toNat ≤ 90)

/-- Class `[0-9]`. -/
def isDigit09 (c : Char) : Bool :=
  decide (48 ≤ c.toNat ∧ c.toNat ≤ 57)

/-- Class `[a-z0-9]` (the `[a-z\d]` class of underscore.string's `underscored`). -/
def isLowerDigit (c : Char) : Bool :=
  isLowerAZ c || isDigit09 c

/-- ASCII letter, i.e. the class `[a-zA-Z]` (= `[^a-z]` complement under the
`i` flag used by iconjar-map.js). -/
def isAsciiLetter (c : Char) : Bool :=
  isLowerAZ c || isUpperAZ c

/-- JavaScript word character `\w` = `[A-Za-z0-9_]`, used by `\b`. -/
def isJsWordChar (c : Char) : Bool :=
  isAsciiLetter c || isDigit09 c || c == '_'

/-- Class `[a-f0-9]` with the `i` flag: a hexadecimal digit of either case. -/
def isHexDigitCI (c : Char) : Bool :=
  isDigit09 c
    || decide (97 ≤ c.toNat ∧ c.toNat ≤ 102)
    || decide (65 ≤ c.toNat ∧ c.toNat ≤ 70)

/-- ASCII fragment of JavaScript `String.prototype.toLowerCase`. -/
def toLowerCh (c : Char) : Char :=
  if isUpperAZ c then Char.ofNat (c.toNat + 32) else c

/-- ASCII fragment of JavaScript `String.prototype.toUpperCase`. -/
def toUpperCh (c : Char) : Char :=
  if isLowerAZ c then Char.ofNat (c.toNat - 32) else c

/-! ## Generic string operations (JS semantics) -/

/-- JavaScript `String.prototype.trim` (drop leading and trailing `\s`). -/
def jsTrim (s : List Char) : List Char :=
  ((s.dropWhile isJsWS).reverse.dropWhile isJsWS).reverse

/-- JavaScript `str.split(sep)` for a single-character separator: split at
every occurrence, keeping empty pieces; `"".split(sep)` is `[""]`. -/
def splitOnChar (sep : Char) : List Char → List (List Char)
  | [] => [[]]
  | c :: rest =>
    if c == sep then
      [] :: splitOnChar sep rest
    else
      match splitOnChar sep rest with
      | [] => [[c]]
      | piece :: pieces => (c :: piece) :: pieces

/-- Semantics of `replace(/X+/g, r)` for a character class `p`: each maximal run of
characters satisfying `p` is replaced by the single character `r`.
The flag tracks whether we are inside a run already consumed. -/
def collapseRunsAux (p : Char → Bool) (r : Char) : Bool → List Char → List Char
  | _, [] => []
  | inRun, c :: rest =>
    if p c then
      if inRun then collapseRunsAux p r true rest
      else r :: collapseRunsAux p r true rest
    else c :: collapseRunsAux p r false rest

/-- Semantics of `replace(/X+/g, r)`: maximal runs of `p`-characters become one `r`. -/
def collapseRuns (p : Char → Bool) (r : Char) (s : List Char) : List Char :=
  collapseRunsAux p r false s

/-- Association-list update with JavaScript object-assignment semantics:
`m[k] = v` keeps the position of an existing key and appends a new key. -/
def updateAssoc {ν : Type} : List (List Char × ν) → List Char → ν → List (List Char × ν)
  | [], k, v => [(k, v)]
  | (k', v') :: rest, k, v =>
    if k' = k then (k, v) :: rest else (k', v') :: updateAssoc rest k v

/-- First-match association lookup (JS property read). -/
def lookupAssoc {ν : Type} : List (List Char × ν) → List Char → Option ν
  | [], _ => none
  | (k', v') :: rest, k => if k' = k then some v' else lookupAssoc rest k

/-! ## underscore.string: `titleize ∘ humanize`

The gulp build script derives display names with `titleize(humanize(name))`
from the `underscore.string` package. The definitions below embed those
library functions (v3.x):
  underscored(str) = trim(str).replace(/([a-z\d])([A-Z]+)/g, a1_a2)
                       .replace(/[-\s]+/g, c_).toLowerCase()
  humanize(str)    = capitalize(trim(underscored(str).replace(/_id$/, c0)
                       .replace(/_/g, csp)))
  capitalize(str)  = str.charAt(0).toUpperCase() + str.slice(1)
  titleize(str)    = str.toLowerCase()
                       .replace(/(?:^|\s|-)\S/g, m.toUpperCase)
-/

/-- Semantics of `replace(/([a-z\d])([A-Z]+)/g, a1_a2)`: the matches of this
regex are exactly the adjacent pairs (lower-or-digit, upper) followed by the
rest of the uppercase run, so the replacement inserts one underscore between
every such adjacent pair. -/
def sepCamel : List Char → List Char
  | [] => []
  | [c] => [c]
  | c :: d :: rest =>
    if isLowerDigit c && isUpperAZ d then
      c :: '_' :: sepCamel (d :: rest)
    else
      c :: sepCamel (d :: rest)

/-- Dash or `\s`, the class of `replace(/[-\s]+/g, c_)`. -/
def isDashWS (c : Char) : Bool := c == '-' || isJsWS c

/-- underscore.string `underscored`. -/
def underscored (s : List Char) : List Char :=
  (collapseRuns isDashWS '_' (sepCamel (jsTrim s))).map toLowerCh

/-- Whether the string ends with `"_id"` (the `/_id$/` test). -/
def endsWithUid (s : List Char) : Bool :=
  s.reverse.take 3 == ['d', 'i', '_']

/-- Semantics of `replace(/_id$/, c0)` (drop a trailing `_id`). -/
def dropSuffixId (s : List Char) : List Char :=
  if endsWithUid s then s.take (s.length - 3) else s

/-- underscore.string `capitalize` (default form: rest unchanged). -/
def capitalizeUS : List Char → List Char
  | [] => []
  | c :: rest => toUpperCh c :: rest

/-- underscore.string `humanize`. -/
def humanize (s : List Char) : List Char :=
  capitalizeUS (jsTrim ((dropSuffixId (underscored s)).map
    (fun c => if c == '_' then ' ' else c)))

/-- The global scan of `replace(/(?:^|\s|-)\S/g, m.toUpperCase)` after the
start-of-string position: a match consumes a boundary character (`\s` or `-`)
together with the following non-space character, which is uppercased; a
boundary character whose successor is whitespace is passed over and the scan
resumes at that successor. -/
def titleScan : List Char → List Char
  | [] => []
  | c :: rest =>
    if isJsWS c || c == '-' then
      match rest with
      | [] => [c]
      | d :: rest' =>
        if isJsWS d then c :: titleScan (d :: rest')
        else c :: toUpperCh d :: titleScan rest'
    else c :: titleScan rest

/-- underscore.string `titleize`: lowercase everything, then uppercase each
`\S` at the start of the string or right after `\s` or `-` (each match
consumes its boundary character). -/
def titleize (s : List Char) : List Char :=
  match s.map toLowerCh with
  | [] => []
  | c :: rest =>
    if isJsWS c then titleScan (c :: rest)
    else toUpperCh c :: titleScan rest

/-- The gulp converter's full name derivation `titleize(humanize(name))`. -/
def titleizeHumanize (s : List Char) : List Char :=
  titleize (humanize s)

/-! ## The gulp-task converter (`codepointsToIjmap`)

From the gulpfile:
```
_(codepoints).split(nl).reject(_.isEmpty)
  .reduce((codepointMap, line) => {
    let [ name, codepoint ] = line.split(sp);
    codepointMap[codepoint] = { name: titleize(humanize(name)) };
    return codepointMap;
  }, {});
```
-/

/-- An ijmap display record: an object with the single field `name`. -/
structure IJEntry where
  name : List Char
deriving DecidableEq, Repr

/-- The accumulating codepoint map, a JS object in insertion order. -/
abbrev IJMap : Type := List (List Char × IJEntry)

/-- Destructuring `let [name, _] = line.split(sp)`: the first space-separated piece. -/
def lineName (line : List Char) : List Char :=
  match splitOnChar ' ' line with
  | n :: _ => n
  | [] => []

/-- Destructuring `let [_, codepoint] = line.split(sp)`: the second piece; when the line
has no space, the destructured value is `undefined` and the JS property key
becomes the string `"undefined"`. -/
def lineCodepoint (line : List Char) : List Char :=
  match splitOnChar ' ' line with
  | _ :: c :: _ => c
  | _ => "undefined".data

/-- The body of the gulp converter's `reduce`. -/
def ijmapStep (m : IJMap) (line : List Char) : IJMap :=
  updateAssoc m (lineCodepoint line) ⟨titleizeHumanize (lineName line)⟩

/-- Split on newlines, then `reject(_.isEmpty)`. -/
def nonBlankLines (input : List Char) : List (List Char) :=
  (splitOnChar '\n' input).filter (fun l => !l.isEmpty)

/-- The gulp converter `codepointsToIjmap`. -/
def codepointsToIjmap (input : List Char) : IJMap :=
  (nonBlankLines input).foldl ijmapStep []

/-! ## The standalone converter (`iconfont/iconjar-map.js`)

Its `readline` handler runs, per line,
```
var match = line.match( /(.*)\s([a-f0-9]+)/i );
var unicode = match[2];
var name = match[1].toLowerCase().replace( /[^a-z]+/gi, csp )
             .replace( /\b[a-z]/g, up ).trim();
json.icons[unicode] = { name: name };
```
Lines delivered by `readline` contain no line terminators, so the `.`
in `(.*)` imposes no constraint. The greedy backtracking search makes
group 1 the longest prefix that is followed by a `\s` character whose
successor is a hex digit, and group 2 the maximal run of hex digits after
that `\s`. When the regex does not match, `match` is `null` and reading
`match[2]` throws an uncaught `TypeError`, modelled as `none`.
-/

/-- Backtracking of `(.*)\s(hex...)`: choose the rightmost position holding a
`\s` character immediately followed by a hex digit; return the prefix before
it (group 1) and the remainder after the `\s`. -/
def lastSplitWsHex : List Char → Option (List Char × List Char)
  | [] => none
  | c :: rest =>
    match lastSplitWsHex rest with
    | some (p, q) => some (c :: p, q)
    | none =>
      match rest with
      | d :: _ =>
        if isJsWS c && isHexDigitCI d then some ([], rest) else none
      | [] => none

/-- Result of `line.match( /(.*)\s([a-f0-9]+)/i )`: `(group1, group2)`. -/
def jsMatchNameHex (line : List Char) : Option (List Char × List Char) :=
  (lastSplitWsHex line).map (fun pq => (pq.1, pq.2.takeWhile isHexDigitCI))

/-- Scan of `replace(/\b[a-z]/g, up)`: uppercase every `[a-z]` character
whose predecessor is absent or is not a word character (`\b` positions are
judged on the original characters, which the case replacement preserves). -/
def capWordStartsAux (prevIsWord : Bool) : List Char → List Char
  | [] => []
  | c :: rest =>
    (if isLowerAZ c && !prevIsWord then toUpperCh c else c)
      :: capWordStartsAux (isJsWordChar c) rest

/-- Replacement `replace(/\b[a-z]/g, up)` over the whole string. -/
def capWordStarts (s : List Char) : List Char :=
  capWordStartsAux false s

/-- Name derivation of iconjar-map.js:
`toLowerCase().replace(/[^a-z]+/gi, csp).replace(/\b[a-z]/g, up).trim()`. -/
def iconjarLineName (s : List Char) : List Char :=
  jsTrim (capWordStarts ((collapseRuns (fun c => !isAsciiLetter c) ' '
    (s.map toLowerCh))))

/-- One `'line'` event of iconjar-map.js; `none` is the uncaught
`TypeError` thrown when the regex does not match. -/
def iconjarStep (m : IJMap) (line : List Char) : Option IJMap :=
  (jsMatchNameHex line).map
    (fun nu => updateAssoc m nu.2 ⟨iconjarLineName nu.1⟩)

/-- The whole standalone run over the lines delivered by `readline`:
the first throwing line aborts the run. -/
def iconjarRun (lines : List (List Char)) : Option IJMap :=
  lines.foldlM iconjarStep []

/-! ## The serialized document (`generateIjmap`)

The gulp task wraps the codepoint map as `{ icons: codepointsToIjmap(...) }`
and passes it to `JSON.stringify`. The JSON value is modelled up to its
abstract syntax (objects keep insertion order, as `JSON.stringify` does for
string keys). -/

/-- Abstract JSON values (the fragments this repository produces). -/
inductive Json where
  | str : List Char → Json
  | obj : List (List Char × Json) → Json
deriving Repr

/-- The document built by `generateIjmap`: `{ icons: codepointsToIjmap(contents) }`. -/
def ijmapDocument (contents : List Char) : Json :=
  .obj [("icons".data,
    .obj ((codepointsToIjmap contents).map
      (fun kv => (kv.1, Json.obj [("name".data, Json.str kv.2.name)]))))]

/-- Shape required of one catalog member: an object with exactly the one
field `name`, holding a string. -/
def entryShaped : Json → Bool
  | .obj [(k, .str _)] => k == "name".data
  | _ => false

/-- Shape required of the whole document: one top-level object with the
single key `icons`, each member of which is `entryShaped`. -/
def documentShaped : Json → Bool
  | .obj [(k, .obj members)] =>
      k == "icons".data && members.all (fun kv => entryShaped kv.2)
  | _ => false

/-! ## The sprite build fan-out

From the gulpfile: `ICON_CATEGORIES`, `PNG_COLORS`, `getCategoryColorPairs`,
and the `png-sprites` / `svg-sprites` tasks that map the sprite-compositing
calls over them. -/

/-- Names of directories containing icons. -/
def ICON_CATEGORIES : List String :=
  ["action", "alert", "av", "communication", "content", "editor", "file",
   "hardware", "image", "maps", "navigation", "notification", "places",
   "social", "toggle"]

/-- Standard PNG colors. -/
def PNG_COLORS : List String :=
  ["black", "white"]

/-- Gulpfile `getCategoryColorPairs`:
`_(ICON_CATEGORIES).map(c => _.zip(_.times(PNG_COLORS.length, () => c), PNG_COLORS)).flatten()`. -/
def getCategoryColorPairs : List (String × String) :=
  (ICON_CATEGORIES.map
    (fun category =>
      (List.replicate PNG_COLORS.length category).zip PNG_COLORS)).flatten

/-- Arguments of one `sprity.src` call in the `png-sprites` task. -/
structure SprityCall where
  src : String
  style : String
  name : String
  engine : String
  orientation : String
deriving DecidableEq, Repr

/-- The `sprity.src` invocation for one (category, color) pair. -/
def mkSprityCall (category color : String) : SprityCall :=
  { src := "./" ++ category ++ "/1x_web/*_" ++ color ++ "_24dp.png"
    style := "sprite-" ++ category ++ "-" ++ color ++ ".css"
    name := "sprite-" ++ category ++ "-" ++ color
    engine := "sprity-gm"
    orientation := "left-right" }

/-- All raster-sprite invocations made by the `png-sprites` task. -/
def pngSpritesCalls : List SprityCall :=
  getCategoryColorPairs.map (fun p => mkSprityCall p.1 p.2)

/-- Arguments of one `svgSprite` pipeline in the `svg-sprites` task
(the category determines every path in `getSvgSpriteConfig`). -/
structure SvgSpriteCall where
  srcGlob : String
  cssSprite : String
  symbolSprite : String
deriving DecidableEq, Repr

/-- The `gulp.src(...).pipe(svgSprite(getSvgSpriteConfig(category)))`
invocation for one category. -/
def mkSvgSpriteCall (category : String) : SvgSpriteCall :=
  { srcGlob := "./" ++ category ++ "/svg/production/*_24px.svg"
    cssSprite := "./svg-sprite-" ++ category ++ ".svg"
    symbolSprite := "./svg-sprite-" ++ category ++ "-symbol.svg" }

/-- All vector-sprite invocations made by the `svg-sprites` task. -/
def svgSpritesCalls : List SvgSpriteCall :=
  ICON_CATEGORIES.map mkSvgSpriteCall

/-! ## React icon components

Each generated component file is the same wrapper applied to that file's
fixed markup:
`props => <svg width={24} height={24} viewBox="0 0 24 24" {...props}>CHILDREN</svg>`.
The JSX element's props object is `{width: 24, height: 24, viewBox: ..,
...props}`: the caller's props are spread after the defaults, so a caller
key overrides a default in place while fresh keys are appended. The JSX
children are passed separately from the props object, so they are
unaffected by the spread. Most components wrap a single `<path>`, but not
all: `IcBubbleChart` wraps three `<circle>`s, `IcBorderColor` two
`<path>`s, `IcFiberSmartRecord` a `<g>` holding a circle and a path. JSX
numeric attribute literals are finite decimals carried as inert data:
`RVal.dec m e` stands for the literal with digits `m` and `e` decimal
places (`cx={7.2}` is `dec 72 1`, `fillOpacity={0.36}` is `dec 36 2`); no
arithmetic is ever performed on them. -/

/-- An attribute value: integer, finite-decimal, or string literal. -/
inductive RVal where
  | nat : Nat → RVal
  | dec : Nat → Nat → RVal
  | str : List Char → RVal
deriving DecidableEq, Repr

/-- A markup node: tag, attributes, child nodes. -/
inductive RNode where
  | elem : List Char → List (List Char × RVal) → List RNode → RNode
deriving Repr

/-- Tag of a markup node. -/
def rnodeTag : RNode → List Char
  | .elem t _ _ => t

/-- The rendered `<svg>` element. -/
structure SvgElem where
  tag : List Char
  attrs : List (List Char × RVal)
  children : List RNode
deriving Repr

/-- JS object-literal spread `{d1, d2, d3, ...props}`: later assignments
override earlier keys in place and append new keys. -/
def jsxMergeProps (defaults callerProps : List (List Char × RVal)) :
    List (List Char × RVal) :=
  callerProps.foldl (fun m kv => updateAssoc m kv.1 kv.2) defaults

/-- The default attributes shared by every component file:
`width={24} height={24} viewBox="0 0 24 24"`. -/
def svgDefaultAttrs : List (List Char × RVal) :=
  [(("width").data, .nat 24), (("height").data, .nat 24),
   (("viewBox").data, .str ("0 0 24 24").data)]

/-- The wrapper common to every component file: one `svg` element whose
props object merges the caller's props after the defaults and whose
children are the file's fixed markup. -/
def iconSvgComponent (children : List RNode)
    (props : List (List Char × RVal)) : SvgElem :=
  { tag := ("svg").data
    attrs := jsxMergeProps svgDefaultAttrs props
    children := children }

/-- Fixed markup of `IcWarning` (alert/react/IcWarning.js). -/
def icWarningChildren : List RNode :=
  [.elem ("path").data
    [(("d").data, .str ("M1 21h22L12 2 1 21zm12-3h-2v-2h2v2zm0-4h-2v-4h2v4z").data)] []]

/-- The `IcWarning` component. -/
def IcWarning (props : List (List Char × RVal)) : SvgElem :=
  iconSvgComponent icWarningChildren props

/-- Fixed markup of `IcKeyboardArrowRight`. -/
def icKeyboardArrowRightChildren : List RNode :=
  [.elem ("path").data
    [(("d").data, .str ("M8.59 16.34l4.58-4.59-4.58-4.59L10 5.75l6 6-6 6z").data)] []]

/-- The `IcKeyboardArrowRight` component. -/
def IcKeyboardArrowRight (props : List (List Char × RVal)) : SvgElem :=
  iconSvgComponent icKeyboardArrowRightChildren props

/-- Fixed markup of `IcBubbleChart` (editor/react): three circles, no path.
Source: `<circle cx={7.2} cy={14.4} r={3.2} /><circle cx={14.8} cy={18}
r={2} /><circle cx={15.2} cy={8.8} r={4.8} />`. -/
def icBubbleChartChildren : List RNode :=
  [.elem ("circle").data
    [(("cx").data, .dec 72 1), (("cy").data, .dec 144 1), (("r").data, .dec 32 1)] [],
   .elem ("circle").data
    [(("cx").data, .dec 148 1), (("cy").data, .nat 18), (("r").data, .nat 2)] [],
   .elem ("circle").data
    [(("cx").data, .dec 152 1), (("cy").data, .dec 88 1), (("r").data, .dec 48 1)] []]

/-- The `IcBubbleChart` component. -/
def IcBubbleChart (props : List (List Char × RVal)) : SvgElem :=
  iconSvgComponent icBubbleChartChildren props

/-- Fixed markup of `IcBorderColor` (editor/react/IcBorderColor.js): two
paths, the second with `fillOpacity={0.36}`. -/
def icBorderColorChildren : List RNode :=
  [.elem ("path").data
    [(("d").data, .str ("M17.75 7L14 3.25l-10 10V17h3.75l10-10zm2.96-2.96c.39-.39.39-1.02 0-1.41L18.37.29c-.39-.39-1.02-.39-1.41 0L15 2.25 18.75 6l1.96-1.96z").data)] [],
   .elem ("path").data
    [(("fillOpacity").data, .dec 36 2),
     (("d").data, .str ("M0 20h24v4H0z").data)] []]

/-- The `IcBorderColor` component. -/
def IcBorderColor (props : List (List Char × RVal)) : SvgElem :=
  iconSvgComponent icBorderColorChildren props

/-- Fixed markup of `IcFiberSmartRecord` (av/react): a `<g fill="#010101">`
holding a circle and a path. -/
def icFiberSmartRecordChildren : List RNode :=
  [.elem ("g").data [(("fill").data, .str ("#010101").data)]
    [.elem ("circle").data
      [(("cx").data, .nat 9), (("cy").data, .nat 12), (("r").data, .nat 8)] [],
     .elem ("path").data
      [(("d").data, .str ("M17 4.26v2.09c2.33.82 4 3.04 4 5.65s-1.67 4.83-4 5.65v2.09c3.45-.89 6-4.01 6-7.74s-2.55-6.85-6-7.74z").data)] []]]

/-- The `IcFiberSmartRecord` component. -/
def IcFiberSmartRecord (props : List (List Char × RVal)) : SvgElem :=
  iconSvgComponent icFiberSmartRecordChildren props

/-! ## Spec-side definitions and auxiliary observers -/

/-- Alphanumeric: letter or digit. -/
def isAlphaNum (c : Char) : Bool := isAsciiLetter c || isDigit09 c

/-- Capitalize the first character of each space-separated word (the flag is
true at the start of a word). -/
def capEachWordAux : Bool → List Char → List Char
  | _, [] => []
  | atStart, c :: rest =>
    if c == ' ' then ' ' :: capEachWordAux true rest
    else (if atStart then toUpperCh c else c) :: capEachWordAux false rest

/-- Modelled from the spec's words (the name-derivation algorithm claimed for
the converter): lowercase the identifier, replace each run of
non-alphanumeric characters with a single space, trim leading/trailing
whitespace, and capitalize the first letter of each resulting word. Stated
only to be compared against the converters' actual derivations. -/
def specTitleName (s : List Char) : List Char :=
  capEachWordAux true
    (jsTrim (collapseRuns (fun c => !isAlphaNum c) ' ' (s.map toLowerCh)))

/-- Words of lowercase letters and digits joined by the separator `sep`
(used to describe the identifier grammar `word(_word)*`). -/
def joinSep (sep : Char) : List (List Char) → List Char
  | [] => []
  | [w] => w
  | w :: ws => w ++ sep :: joinSep sep ws

/-- Whether some character of the line is a `\s` character immediately
followed by a hex digit — exactly the condition under which the regex
`(.*)\s([a-f0-9]+)/i` matches a terminator-free line. -/
def hasWsHexPair : List Char → Bool
  | c :: d :: rest => (isJsWS c && isHexDigitCI d) || hasWsHexPair (d :: rest)
  | _ => false

/-- Name token of the last line (in source order) whose codepoint token is
`u`, searching from the right. -/
def lastNameFor (u : List Char) : List (List Char) → Option (List Char)
  | [] => none
  | l :: rest =>
    match lastNameFor u rest with
    | some n => some n
    | none => if lineCodepoint l = u then some (lineName l) else none

/-- A word of the identifier grammar: nonempty, all lowercase letters or
digits. -/
def goodWord (w : List Char) : Bool :=
  !w.isEmpty && w.all isLowerDigit

/-- A nonempty list of identifier words (the identifier is their `_`-join). -/
def goodWords (ws : List (List Char)) : Bool :=
  !ws.isEmpty && ws.all goodWord

/-! ## ECMAScript property enumeration order

JavaScript objects enumerate (and `JSON.stringify` serializes) their own
string keys in OrdinaryOwnPropertyKeys order: keys that are canonical
array indices (all digits, no leading zero except for `"0"` itself, value
strictly below 2^32 - 1) come first, ascending by numeric value, and the
remaining string keys follow in property creation order. The association
lists above track creation order faithfully (assignment to an existing key
keeps its position); `jsEnumKeys` derives the observable enumeration order
from them. -/

/-- Numeric value of a digit string. -/
def digitsToNat (s : List Char) : Nat :=
  s.foldl (fun n c => 10 * n + (c.toNat - 48)) 0

/-- Whether a key is a canonical array index in the ECMAScript sense. -/
def isArrayIndexKey (s : List Char) : Bool :=
  (!s.isEmpty) && s.all isDigit09
    && (s == ['0'] || !(s.head? == some '0'))
    && decide (digitsToNat s < 4294967295)

/-- Insert a key into a list sorted ascending by numeric value. -/
def insertAscVal (k : List Char) : List (List Char) → List (List Char)
  | [] => [k]
  | x :: rest =>
    if digitsToNat k ≤ digitsToNat x then k :: x :: rest
    else x :: insertAscVal k rest

/-- Sort index keys ascending by numeric value. -/
def sortAscVal : List (List Char) → List (List Char)
  | [] => []
  | k :: rest => insertAscVal k (sortAscVal rest)

/-- The enumeration/serialization order of an object's keys: array-index
keys ascending numerically, then the rest in creation order. -/
def jsEnumKeys {ν : Type} (m : List (List Char × ν)) : List (List Char) :=
  sortAscVal ((m.map Prod.fst).filter isArrayIndexKey)
    ++ (m.map Prod.fst).filter (fun k => !isArrayIndexKey k)

/-! # Theorems -/

/-! ## Character facts -/

theorem toNat_ofNat_small {n : Nat} (h : n < 55296) : (Char.ofNat n).toNat = n := by
  rw [Char.ofNat, dif_pos (Or.inl h)]
  rfl

theorem char_toNat_inj {c d : Char} (h : c.toNat = d.toNat) : c = d := by
  have h2 := congrArg Char.ofNat h
  rwa [Char.ofNat_toNat, Char.ofNat_toNat] at h2

theorem isLowerAZ_iff {c : Char} :
    isLowerAZ c = true ↔ 97 ≤ c.toNat ∧ c.toNat ≤ 122 := by
  simp [isLowerAZ]

theorem isUpperAZ_iff {c : Char} :
    isUpperAZ c = true ↔ 65 ≤ c.toNat ∧ c.toNat ≤ 90 := by
  simp [isUpperAZ]

theorem isDigit09_iff {c : Char} :
    isDigit09 c = true ↔ 48 ≤ c.toNat ∧ c.toNat ≤ 57 := by
  simp [isDigit09]

theorem isLowerDigit_iff {c : Char} :
    isLowerDigit c = true ↔
      (97 ≤ c.toNat ∧ c.toNat ≤ 122) ∨ (48 ≤ c.toNat ∧ c.toNat ≤ 57) := by
  simp [isLowerDigit, isLowerAZ, isDigit09]

theorem isJsWS_toNat_le {c : Char} (h : isJsWS c = true) : c.toNat ≤ 32 := by
  simp only [isJsWS, Bool.or_eq_true, beq_iff_eq] at h
  rcases h with ((((h | h) | h) | h) | h) | h <;> subst h <;> decide

theorem isJsWS_eq_false {c : Char} (h : 33 ≤ c.toNat) : isJsWS c = false := by
  cases hw : isJsWS c with
  | false => rfl
  | true => exact absurd (isJsWS_toNat_le hw) (by omega)

theorem isDashWS_toNat {c : Char} (h : isDashWS c = true) :
    c.toNat ≤ 32 ∨ c.toNat = 45 := by
  simp only [isDashWS, Bool.or_eq_true, beq_iff_eq] at h
  rcases h with h | h
  · subst h; right; decide
  · exact Or.inl (isJsWS_toNat_le h)

theorem isUpperAZ_eq_false_of_lowerDigit {c : Char} (h : isLowerDigit c = true) :
    isUpperAZ c = false := by
  have hr := isLowerDigit_iff.mp h
  cases hu : isUpperAZ c with
  | false => rfl
  | true => exact absurd (isUpperAZ_iff.mp hu) (by omega)

theorem isJsWS_eq_false_of_lowerDigit {c : Char} (h : isLowerDigit c = true) :
    isJsWS c = false := by
  have hr := isLowerDigit_iff.mp h
  exact isJsWS_eq_false (by omega)

theorem isDashWS_eq_false_of_lowerDigit {c : Char} (h : isLowerDigit c = true) :
    isDashWS c = false := by
  have hr := isLowerDigit_iff.mp h
  cases hd : isDashWS c with
  | false => rfl
  | true => exact absurd (isDashWS_toNat hd) (by omega)

theorem beq_underscore_eq_false_of_lowerDigit {c : Char} (h : isLowerDigit c = true) :
    (c == '_') = false := by
  have hr := isLowerDigit_iff.mp h
  cases he : c == '_' with
  | false => rfl
  | true =>
    have : c = '_' := by exact beq_iff_eq.mp he
    subst this
    simp at hr

theorem beq_space_eq_false_of_lowerDigit {c : Char} (h : isLowerDigit c = true) :
    (c == ' ') = false := by
  have hr := isLowerDigit_iff.mp h
  cases he : c == ' ' with
  | false => rfl
  | true =>
    have : c = ' ' := beq_iff_eq.mp he
    subst this
    simp at hr

theorem beq_dash_eq_false_of_lowerDigit {c : Char} (h : isLowerDigit c = true) :
    (c == '-') = false := by
  have hr := isLowerDigit_iff.mp h
  cases he : c == '-' with
  | false => rfl
  | true =>
    have : c = '-' := beq_iff_eq.mp he
    subst this
    simp at hr

theorem isAlphaNum_eq_true_of_lowerDigit {c : Char} (h : isLowerDigit c = true) :
    isAlphaNum c = true := by
  simp only [isLowerDigit, Bool.or_eq_true] at h
  rcases h with h | h
  · simp [isAlphaNum, isAsciiLetter, h]
  · simp [isAlphaNum, h]

theorem toLowerCh_eq_self {c : Char} (h : isUpperAZ c = false) :
    toLowerCh c = c := by
  simp [toLowerCh, h]

theorem toUpperCh_eq_self {c : Char} (h : isLowerAZ c = false) :
    toUpperCh c = c := by
  simp [toUpperCh, h]

theorem toUpperCh_toNat_of_lower {c : Char} (h : isLowerAZ c = true) :
    (toUpperCh c).toNat = c.toNat - 32 := by
  have hr := isLowerAZ_iff.mp h
  simp only [toUpperCh, h, if_true]
  exact toNat_ofNat_small (by omega)

theorem toLowerCh_toUpperCh {c : Char} : toLowerCh (toUpperCh c) = toLowerCh c := by
  cases hl : isLowerAZ c with
  | false => rw [toUpperCh_eq_self hl]
  | true =>
    have hr := isLowerAZ_iff.mp hl
    have hup : (toUpperCh c).toNat = c.toNat - 32 := toUpperCh_toNat_of_lower hl
    have hupper : isUpperAZ (toUpperCh c) = true := isUpperAZ_iff.mpr (by omega)
    have hnotup : isUpperAZ c = false := by
      cases hu : isUpperAZ c with
      | false => rfl
      | true => exact absurd (isUpperAZ_iff.mp hu) (by omega)
    rw [toLowerCh_eq_self hnotup]
    simp only [toLowerCh, hupper, if_true, hup]
    have : c.toNat - 32 + 32 = c.toNat := by omega
    rw [this, Char.ofNat_toNat]

theorem isJsWS_toUpperCh_eq_false_of_lowerDigit {c : Char} (h : isLowerDigit c = true) :
    isJsWS (toUpperCh c) = false := by
  simp only [isLowerDigit, Bool.or_eq_true] at h
  rcases h with h | h
  · have := toUpperCh_toNat_of_lower h
    have hr := isLowerAZ_iff.mp h
    exact isJsWS_eq_false (by omega)
  · have hr := isDigit09_iff.mp h
    have hl : isLowerAZ c = false := by
      cases hl : isLowerAZ c with
      | false => rfl
      | true => exact absurd (isLowerAZ_iff.mp hl) (by omega)
    rw [toUpperCh_eq_self hl]
    exact isJsWS_eq_false (by omega)

/-! ## Association-map lemmas -/

theorem lookup_update_self {ν : Type} (m : List (List Char × ν)) (k : List Char) (v : ν) :
    lookupAssoc (updateAssoc m k v) k = some v := by
  induction m with
  | nil => simp [updateAssoc, lookupAssoc]
  | cons kv rest ih =>
    obtain ⟨k', v'⟩ := kv
    by_cases h : k' = k
    · simp [updateAssoc, h, lookupAssoc]
    · simp [updateAssoc, h, lookupAssoc, ih]

theorem lookup_update_other {ν : Type} (m : List (List Char × ν)) (k k' : List Char)
    (v : ν) (h : k' ≠ k) :
    lookupAssoc (updateAssoc m k v) k' = lookupAssoc m k' := by
  have hne : ¬ k = k' := fun he => h he.symm
  induction m with
  | nil => simp [updateAssoc, lookupAssoc, hne]
  | cons kv rest ih =>
    obtain ⟨k0, v0⟩ := kv
    by_cases h0 : k0 = k
    · subst h0
      simp [updateAssoc, lookupAssoc, hne]
    · simp only [updateAssoc, if_neg h0, lookupAssoc]
      by_cases h1 : k0 = k'
      · simp [h1]
      · simp [h1, ih]

theorem lookup_eq_none_of_not_mem {ν : Type} (m : List (List Char × ν)) (k : List Char)
    (h : k ∉ m.map Prod.fst) :
    lookupAssoc m k = none := by
  induction m with
  | nil => rfl
  | cons kv rest ih =>
    simp only [List.map_cons, List.mem_cons] at h
    push_neg at h
    obtain ⟨k0, v0⟩ := kv
    simp only [lookupAssoc]
    rw [if_neg (by intro he; exact h.1 (by simpa using he.symm))]
    exact ih h.2

theorem update_eq_append_of_not_mem {ν : Type} (m : List (List Char × ν)) (k : List Char)
    (v : ν) (h : k ∉ m.map Prod.fst) :
    updateAssoc m k v = m ++ [(k, v)] := by
  induction m with
  | nil => rfl
  | cons kv rest ih =>
    simp only [List.map_cons, List.mem_cons] at h
    push_neg at h
    obtain ⟨k0, v0⟩ := kv
    simp only [updateAssoc]
    rw [if_neg (by intro he; exact h.1 he.symm)]
    rw [ih h.2]
    rfl

theorem mem_keys_update {ν : Type} (m : List (List Char × ν)) (k x : List Char) (v : ν) :
    x ∈ (updateAssoc m k v).map Prod.fst ↔ x ∈ m.map Prod.fst ∨ x = k := by
  induction m with
  | nil => simp [updateAssoc]
  | cons kv rest ih =>
    obtain ⟨k0, v0⟩ := kv
    by_cases h0 : k0 = k
    · simp only [updateAssoc, if_pos h0, List.map_cons, List.mem_cons]
      subst h0
      constructor
      · rintro (h1 | h1)
        · exact Or.inr h1
        · exact Or.inl (Or.inr h1)
      · rintro ((h1 | h1) | h1)
        · exact Or.inl h1
        · exact Or.inr h1
        · exact Or.inl h1
    · simp only [updateAssoc, if_neg h0, List.map_cons, List.mem_cons, ih]
      constructor
      · rintro (h1 | h1 | h1)
        · exact Or.inl (Or.inl h1)
        · exact Or.inl (Or.inr h1)
        · exact Or.inr h1
      · rintro ((h1 | h1) | h1)
        · exact Or.inl h1
        · exact Or.inr (Or.inl h1)
        · exact Or.inr (Or.inr h1)

theorem keys_nodup_update {ν : Type} (m : List (List Char × ν)) (k : List Char) (v : ν)
    (h : (m.map Prod.fst).Nodup) :
    ((updateAssoc m k v).map Prod.fst).Nodup := by
  induction m with
  | nil => simp [updateAssoc]
  | cons kv rest ih =>
    obtain ⟨k0, v0⟩ := kv
    simp only [List.map_cons, List.nodup_cons] at h
    by_cases h0 : k0 = k
    · subst h0
      have he : updateAssoc ((k0, v0) :: rest) k0 v = (k0, v) :: rest := by
        simp [updateAssoc]
      rw [he]
      simp only [List.map_cons, List.nodup_cons]
      exact h
    · have he : updateAssoc ((k0, v0) :: rest) k v = (k0, v0) :: updateAssoc rest k v := by
        simp [updateAssoc, h0]
      rw [he]
      simp only [List.map_cons, List.nodup_cons]
      refine ⟨?_, ih h.2⟩
      rw [mem_keys_update]
      rintro (hm | rfl)
      · exact h.1 hm
      · exact h0 rfl

/-! ## Split-line lemmas -/

theorem splitOnChar_eq_single {sep : Char} : ∀ s : List Char, sep ∉ s →
    splitOnChar sep s = [s]
  | [], _ => rfl
  | c :: rest, h => by
    have hc : ¬ c = sep := fun he => h (he ▸ List.mem_cons_self c rest)
    have hrest : sep ∉ rest := fun hm => h (List.mem_cons_of_mem c hm)
    simp only [splitOnChar, beq_eq_false_iff_ne.mpr hc, Bool.false_eq_true, if_false,
      splitOnChar_eq_single rest hrest]

theorem splitOnChar_append_sep {sep : Char} : ∀ (xs ys : List Char), sep ∉ xs →
    splitOnChar sep (xs ++ sep :: ys) = xs :: splitOnChar sep ys
  | [], ys, _ => by simp [splitOnChar]
  | c :: xs, ys, h => by
    have hc : ¬ c = sep := fun he => h (he ▸ List.mem_cons_self c xs)
    have hxs : sep ∉ xs := fun hm => h (List.mem_cons_of_mem c hm)
    have hrec := splitOnChar_append_sep xs ys hxs
    simp only [List.cons_append, splitOnChar, beq_eq_false_iff_ne.mpr hc,
      Bool.false_eq_true, if_false]
    rw [show xs.append (sep :: ys) = xs ++ sep :: ys from rfl, hrec]

theorem splitOnChar_wf_line (name hex : List Char)
    (hn : ' ' ∉ name) (hh : ' ' ∉ hex) :
    splitOnChar ' ' (name ++ ' ' :: hex) = [name, hex] := by
  rw [splitOnChar_append_sep name hex hn, splitOnChar_eq_single hex hh]

theorem lineName_wf (name hex : List Char) (hn : ' ' ∉ name) (hh : ' ' ∉ hex) :
    lineName (name ++ ' ' :: hex) = name := by
  rw [lineName, splitOnChar_wf_line name hex hn hh]

theorem lineCodepoint_wf (name hex : List Char) (hn : ' ' ∉ name) (hh : ' ' ∉ hex) :
    lineCodepoint (name ++ ' ' :: hex) = hex := by
  rw [lineCodepoint, splitOnChar_wf_line name hex hn hh]

/-! ## Fold lemmas for the gulp converter -/

theorem lookup_foldl_ijmapStep (u : List Char) :
    ∀ (ls : List (List Char)) (m : IJMap),
    lookupAssoc (ls.foldl ijmapStep m) u =
      match lastNameFor u ls with
      | some n => some ⟨titleizeHumanize n⟩
      | none => lookupAssoc m u
  | [], m => rfl
  | l :: ls, m => by
    rw [List.foldl_cons, lookup_foldl_ijmapStep u ls (ijmapStep m l), lastNameFor]
    cases hrest : lastNameFor u ls with
    | some n => rfl
    | none =>
      by_cases hc : lineCodepoint l = u
      · rw [if_pos hc, ijmapStep, ← hc, lookup_update_self]
      · rw [if_neg hc, ijmapStep, lookup_update_other m _ u _ (fun he => hc he.symm)]

theorem lastNameFor_append (u : List Char) : ∀ (xs ys : List (List Char)),
    lastNameFor u (xs ++ ys) =
      match lastNameFor u ys with
      | some n => some n
      | none => lastNameFor u xs
  | [], ys => by cases h : lastNameFor u ys <;> simp [lastNameFor, h]
  | l :: xs, ys => by
    rw [List.cons_append, lastNameFor, lastNameFor_append u xs ys, lastNameFor]
    cases h : lastNameFor u ys <;> cases h2 : lastNameFor u xs <;> rfl

theorem lastNameFor_eq_none (u : List Char) : ∀ (ls : List (List Char)),
    (∀ l ∈ ls, lineCodepoint l ≠ u) → lastNameFor u ls = none
  | [], _ => rfl
  | l :: ls, h => by
    rw [lastNameFor, lastNameFor_eq_none u ls (fun l' hl' => h l' (List.mem_cons_of_mem l hl'))]
    rw [if_neg (h l (List.mem_cons_self l ls))]

theorem keys_foldl_ijmapStep :
    ∀ (ls : List (List Char)) (m : IJMap),
    (ls.map lineCodepoint).Nodup →
    (∀ l ∈ ls, lineCodepoint l ∉ m.map Prod.fst) →
    (ls.foldl ijmapStep m).map Prod.fst = m.map Prod.fst ++ ls.map lineCodepoint
  | [], m, _, _ => by simp
  | l :: ls, m, hnd, hfresh => by
    simp only [List.map_cons, List.nodup_cons] at hnd
    have hstep : ijmapStep m l = m ++ [(lineCodepoint l, ⟨titleizeHumanize (lineName l)⟩)] :=
      update_eq_append_of_not_mem m _ _ (hfresh l (List.mem_cons_self l ls))
    rw [List.foldl_cons, keys_foldl_ijmapStep ls (ijmapStep m l) hnd.2 ?_]
    · rw [hstep]
      simp
    · intro l' hl'
      rw [hstep, List.map_append, List.mem_append]
      rintro (hm | hk)
      · exact hfresh l' (List.mem_cons_of_mem l hl') hm
      · simp only [List.map_cons, List.map_nil, List.mem_cons, List.not_mem_nil] at hk
        rcases hk with hk | hk
        · exact hnd.1 (hk ▸ List.mem_map_of_mem lineCodepoint hl')
        · exact hk

theorem keys_nodup_foldl_ijmapStep :
    ∀ (ls : List (List Char)) (m : IJMap),
    (m.map Prod.fst).Nodup →
    ((ls.foldl ijmapStep m).map Prod.fst).Nodup
  | [], m, h => h
  | l :: ls, m, h => by
    rw [List.foldl_cons]
    exact keys_nodup_foldl_ijmapStep ls (ijmapStep m l) (keys_nodup_update m _ _ h)

/-! ## Regex-match characterization (standalone converter) -/

theorem lastSplitWsHex_isSome : ∀ l : List Char,
    (lastSplitWsHex l).isSome = hasWsHexPair l
  | [] => rfl
  | [_] => rfl
  | c :: d :: rest => by
    rw [lastSplitWsHex, hasWsHexPair]
    cases hrec : lastSplitWsHex (d :: rest) with
    | some pq =>
      obtain ⟨p, q⟩ := pq
      have h2 : hasWsHexPair (d :: rest) = true := by
        rw [← lastSplitWsHex_isSome (d :: rest), hrec]
        rfl
      rw [h2, Bool.or_true]
      rfl
    | none =>
      have h2 : hasWsHexPair (d :: rest) = false := by
        rw [← lastSplitWsHex_isSome (d :: rest), hrec]
        rfl
      rw [h2, Bool.or_false]
      cases hp : isJsWS c && isHexDigitCI d with
      | true => rfl
      | false => rfl

/-! ## Claim C1 -/

/-- C1, amended: for every well-formed input line `name ++ " " ++ hex` among
the non-blank lines, provided no later non-blank line bears the same
codepoint token, the output mapping of the gulp converter contains the key
`hex` with name `titleize(humanize(name))` — the converter's title-cased,
whitespace-normalized form of `name`. -/
theorem c1_amended_no_later_duplicate (input name hex : List Char)
    (pre post : List (List Char))
    (hname : name ≠ [] ∧ ' ' ∉ name) (hhex : hex ≠ [] ∧ ' ' ∉ hex)
    (hlines : nonBlankLines input = pre ++ (name ++ ' ' :: hex) :: post)
    (hlater : ∀ l ∈ post, lineCodepoint l ≠ hex) :
    lookupAssoc (codepointsToIjmap input) hex = some ⟨titleizeHumanize name⟩ := by
  rw [codepointsToIjmap, hlines, lookup_foldl_ijmapStep, lastNameFor_append]
  rw [lastNameFor, lastNameFor_eq_none hex post hlater,
      lineCodepoint_wf name hex hname.2 hhex.2, if_pos rfl,
      lineName_wf name hex hname.2 hhex.2]

/-- C1, counterexample to the claim as stated: the input
`"ab e037\nic_play_arrow e037"` contains the well-formed line `ab e037`, yet
the output entry for key `e037` is `Ic Play Arrow`, not the title-cased form
`Ab` of that line's name — a later duplicate codepoint overwrites it. -/
theorem c1_duplicate_codepoint_cex :
    lookupAssoc (codepointsToIjmap ("ab e037\nic_play_arrow e037").data)
        (("e037").data) = some ⟨("Ic Play Arrow").data⟩
    ∧ titleizeHumanize ("ab").data = ("Ab").data
    ∧ (("Ic Play Arrow").data : List Char) ≠ ("Ab").data := by
  decide

/-- C1, witness: the spec's example line `ic_play_arrow e037` produces the
entry `e037 ↦ Ic Play Arrow`. -/
theorem c1_witness :
    lookupAssoc (codepointsToIjmap ("ic_play_arrow e037").data) (("e037").data)
      = some ⟨("Ic Play Arrow").data⟩ :=
  (c1_amended_no_later_duplicate ("ic_play_arrow e037").data
    ("ic_play_arrow").data ("e037").data [] [] (by decide) (by decide)
    (by decide) (fun l hl => absurd hl (List.not_mem_nil l))).trans (by decide)

/-! ## Claim C2 -/

theorem filter_split_of_all_false {p : List Char → Bool} :
    ∀ ks : List (List Char), (∀ k ∈ ks, p k = false) →
      ks.filter p = [] ∧ ks.filter (fun k => !p k) = ks
  | [], _ => ⟨rfl, rfl⟩
  | k :: ks, h => by
    have hk := h k (List.mem_cons_self k ks)
    have ih := filter_split_of_all_false ks (fun x hx => h x (List.mem_cons_of_mem _ hx))
    constructor
    · simp [List.filter_cons, hk, ih.1]
    · simp [List.filter_cons, hk, ih.2]

theorem jsEnumKeys_eq_keys {ν : Type} (m : List (List Char × ν))
    (h : ∀ k ∈ m.map Prod.fst, isArrayIndexKey k = false) :
    jsEnumKeys m = m.map Prod.fst := by
  obtain ⟨h1, h2⟩ := filter_split_of_all_false (m.map Prod.fst) h
  rw [jsEnumKeys, h1, h2]
  rfl

/-- C2, amended: blank lines contribute nothing, and provided the codepoint
tokens of the non-blank lines are pairwise distinct, the gulp converter's
output has exactly one entry per non-blank line; the entries enumerate in
ECMAScript property order — tokens that are canonical array indices
ascending numerically first, then the remaining tokens in the source order
of the non-blank lines — so when no token is an integer-like key (as for
hex codepoints containing a letter) the entries are exactly in source
order. -/
theorem c2_amended_distinct_codepoints (input : List Char)
    (hnd : ((nonBlankLines input).map lineCodepoint).Nodup) :
    (codepointsToIjmap input).length = (nonBlankLines input).length
    ∧ jsEnumKeys (codepointsToIjmap input)
        = sortAscVal (((nonBlankLines input).map lineCodepoint).filter isArrayIndexKey)
          ++ ((nonBlankLines input).map lineCodepoint).filter
              (fun k => !isArrayIndexKey k)
    ∧ ((∀ l ∈ nonBlankLines input, isArrayIndexKey (lineCodepoint l) = false) →
        jsEnumKeys (codepointsToIjmap input)
          = (nonBlankLines input).map lineCodepoint) := by
  have hkeys : (codepointsToIjmap input).map Prod.fst
      = (nonBlankLines input).map lineCodepoint := by
    rw [codepointsToIjmap]
    have h := keys_foldl_ijmapStep (nonBlankLines input) [] hnd
      (by intro l _; simp)
    simpa using h
  refine ⟨?_, ?_, ?_⟩
  · have h := congrArg List.length hkeys
    simpa using h
  · rw [jsEnumKeys, hkeys]
  · intro hnoidx
    have h2 : ∀ k ∈ (codepointsToIjmap input).map Prod.fst,
        isArrayIndexKey k = false := by
      rw [hkeys]
      intro k hk
      rw [List.mem_map] at hk
      obtain ⟨l, hl, rfl⟩ := hk
      exact hnoidx l hl
    rw [jsEnumKeys_eq_keys _ h2, hkeys]

/-- C2, counterexamples to the claim as stated: two non-blank lines bearing
the same codepoint token collapse into one entry, and even with distinct
tokens the integer-like codepoint keys `30` and `4` enumerate numerically
(`4` before `30`), not in source order, per ECMAScript property order. -/
theorem c2_order_and_duplicate_cex :
    ((nonBlankLines ("a e1\nb e1").data).length = 2
      ∧ (codepointsToIjmap ("a e1\nb e1").data).length = 1)
    ∧ (((nonBlankLines ("a 30\nb 4").data).map lineCodepoint).Nodup
      ∧ jsEnumKeys (codepointsToIjmap ("a 30\nb 4").data)
          = [("4").data, ("30").data]
      ∧ (nonBlankLines ("a 30\nb 4").data).map lineCodepoint
          = [("30").data, ("4").data]) := by
  decide

/-- C2, witness: an input with a blank line between two letter-containing
hex entries produces exactly the two entries, in source order. -/
theorem c2_witness :
    ((nonBlankLines ("a e1\n\nb e2").data).map lineCodepoint).Nodup
    ∧ (∀ l ∈ nonBlankLines ("a e1\n\nb e2").data,
        isArrayIndexKey (lineCodepoint l) = false)
    ∧ (codepointsToIjmap ("a e1\n\nb e2").data).length = 2
    ∧ jsEnumKeys (codepointsToIjmap ("a e1\n\nb e2").data)
        = (nonBlankLines ("a e1\n\nb e2").data).map lineCodepoint :=
  ⟨by decide, by decide,
    (c2_amended_distinct_codepoints ("a e1\n\nb e2").data (by decide)).1.trans
      (by decide),
    (c2_amended_distinct_codepoints ("a e1\n\nb e2").data (by decide)).2.2
      (by decide)⟩

/-! ## Claim C5 -/

/-- C5: the two historical converters disagree on digits. On the identifier
`3d_rotation` the gulp converter produces the name `3d Rotation` (digit
kept) while iconjar-map.js produces `D Rotation` (digit stripped), and the
full converters produce those names end to end. -/
theorem c5_converters_disagree_on_digits :
    lookupAssoc (codepointsToIjmap ("3d_rotation e84d").data) (("e84d").data)
        = some ⟨("3d Rotation").data⟩
    ∧ iconjarRun [("3d_rotation e84d").data]
        = some [((("e84d").data : List Char), ⟨("D Rotation").data⟩)]
    ∧ titleizeHumanize ("3d_rotation").data ≠ iconjarLineName ("3d_rotation").data
    ∧ '3' ∈ titleizeHumanize ("3d_rotation").data
    ∧ '3' ∉ iconjarLineName ("3d_rotation").data := by
  decide

/-! ## Claim C6 -/

/-- C6: the gulp transform is a pure function of the input's non-blank
lines — two inputs with the same non-blank lines produce equal mappings —
and the fold carries no cross-line state beyond the accumulating map
(processing `l1 ++ l2` equals processing `l2` from the state left by `l1`). -/
theorem c6_pure_function_of_lines (in1 in2 : List Char)
    (h : nonBlankLines in1 = nonBlankLines in2)
    (m : IJMap) (l1 l2 : List (List Char)) :
    codepointsToIjmap in1 = codepointsToIjmap in2
    ∧ (l1 ++ l2).foldl ijmapStep m = l2.foldl ijmapStep (l1.foldl ijmapStep m) := by
  constructor
  · rw [codepointsToIjmap, codepointsToIjmap, h]
  · exact List.foldl_append ijmapStep m l1 l2

/-- C6, witness: two different raw inputs with the same non-blank lines
yield the same mapping. -/
theorem c6_witness :
    nonBlankLines ("a e1\n").data = nonBlankLines ("\na e1").data
    ∧ codepointsToIjmap ("a e1\n").data = codepointsToIjmap ("\na e1").data :=
  ⟨by decide,
    (c6_pure_function_of_lines ("a e1\n").data ("\na e1").data (by decide)
      [] [] []).1⟩

/-! ## Claim C7 -/

/-- C7: `getCategoryColorPairs` is exactly the cartesian product of the 15
hard-coded categories with the 2 hard-coded PNG colors (30 distinct pairs,
each category with `black` and `white`), the `png-sprites` task invokes
`sprity.src` exactly once per pair, and the `svg-sprites` task invokes the
vector-sprite pipeline exactly once per category. -/
theorem c7_sprite_fanout_grid :
    getCategoryColorPairs
        = ICON_CATEGORIES.flatMap (fun c => PNG_COLORS.map (fun col => (c, col)))
    ∧ ICON_CATEGORIES.length = 15
    ∧ PNG_COLORS = ["black", "white"]
    ∧ getCategoryColorPairs.length = 30
    ∧ getCategoryColorPairs.Nodup
    ∧ pngSpritesCalls = getCategoryColorPairs.map (fun p => mkSprityCall p.1 p.2)
    ∧ pngSpritesCalls.length = 30
    ∧ pngSpritesCalls.Nodup
    ∧ svgSpritesCalls = ICON_CATEGORIES.map mkSvgSpriteCall
    ∧ svgSpritesCalls.length = 15
    ∧ svgSpritesCalls.Nodup := by
  decide

/-! ## Claim C8 -/

/-- C8, counterexample to the claim as stated: malformed non-blank lines can
silently produce entries instead of aborting. The gulp converter maps the
spaceless line `abc` to an entry under the key `undefined`, and
iconjar-map.js maps the line `icon bar` (whose second token is not a hex
codepoint) to an entry under the truncated key `ba` — neither faults. -/
theorem c8_silent_entry_cex :
    codepointsToIjmap ("abc").data = [((("undefined").data : List Char), ⟨("Abc").data⟩)]
    ∧ iconjarRun [("icon bar").data]
        = some [((("ba").data : List Char), ⟨("Icon").data⟩)] := by
  decide

/-- C8, amended: the gulp converter never faults — every non-blank line,
malformed or not, produces an entry under its tokenized codepoint — while
iconjar-map.js faults on a line exactly when the line has no whitespace
character immediately followed by a hex digit (the regex fails and reading
`match[2]` throws). -/
theorem c8_fault_characterization (line : List Char) (m : IJMap)
    (hne : line ≠ []) :
    (iconjarStep m line = none ↔ hasWsHexPair line = false)
    ∧ lookupAssoc (ijmapStep m line) (lineCodepoint line)
        = some ⟨titleizeHumanize (lineName line)⟩ := by
  constructor
  · rw [iconjarStep, jsMatchNameHex, ← lastSplitWsHex_isSome line]
    cases lastSplitWsHex line with
    | none => simp
    | some pq => simp
  · rw [ijmapStep, lookup_update_self]

/-- C8, witness: on the malformed line `zz` the regex finds no
whitespace-hex pair (iconjar-map.js faults there), while the gulp converter
still records an entry for the line's codepoint token. -/
theorem c8_witness :
    (iconjarStep [] ("zz").data = none ↔ hasWsHexPair ("zz").data = false)
    ∧ lookupAssoc (ijmapStep [] ("zz").data) (lineCodepoint ("zz").data)
        = some ⟨titleizeHumanize (lineName ("zz").data)⟩ :=
  c8_fault_characterization ("zz").data [] (by decide)

/-! ## Claim C9 -/

/-- C9: when the same codepoint token appears on several non-blank lines,
the gulp converter keeps exactly one entry for it — the map's keys are
duplicate-free — and the entry's name comes from the last line bearing that
codepoint (later lines overwrite earlier ones). -/
theorem c9_last_line_wins (input u : List Char) :
    lookupAssoc (codepointsToIjmap input) u
      = (lastNameFor u (nonBlankLines input)).map
          (fun n => (⟨titleizeHumanize n⟩ : IJEntry))
    ∧ ((codepointsToIjmap input).map Prod.fst).Nodup := by
  constructor
  · rw [codepointsToIjmap, lookup_foldl_ijmapStep]
    cases lastNameFor u (nonBlankLines input) <;> rfl
  · exact keys_nodup_foldl_ijmapStep (nonBlankLines input) [] (by simp)

/-! ## Claim C4 -/

/-- C4: for every input, the document produced by `generateIjmap` is a
single top-level object with the one key `icons`, whose value maps each
codepoint string to an object with exactly one field `name` holding the
title-case name string. -/
theorem c4_document_shape (input : List Char) :
    documentShaped (ijmapDocument input) = true := by
  rw [ijmapDocument]
  simp only [documentShaped, Bool.and_eq_true, beq_self_eq_true, true_and,
    List.all_eq_true]
  intro kv hkv
  rw [List.mem_map] at hkv
  obtain ⟨a, _, rfl⟩ := hkv
  rfl

/-! ## Claim C10 -/

theorem lookup_jsxMergeProps (k : List Char) :
    ∀ (p d : List (List Char × RVal)), (p.map Prod.fst).Nodup →
    lookupAssoc (jsxMergeProps d p) k =
      match lookupAssoc p k with
      | some v => some v
      | none => lookupAssoc d k
  | [], d, _ => rfl
  | (k0, v0) :: rest, d, hnd => by
    simp only [List.map_cons, List.nodup_cons] at hnd
    show lookupAssoc (jsxMergeProps (updateAssoc d k0 v0) rest) k = _
    rw [lookup_jsxMergeProps k rest (updateAssoc d k0 v0) hnd.2]
    by_cases h0 : k0 = k
    · subst h0
      have hrest : lookupAssoc rest k0 = none :=
        lookup_eq_none_of_not_mem rest k0 hnd.1
      rw [hrest, lookupAssoc, if_pos rfl, lookup_update_self]
    · rw [lookupAssoc, if_neg h0]
      cases lookupAssoc rest k with
      | some v => rfl
      | none => rw [lookup_update_other d k0 k v0 (fun he => h0 he.symm)]

/-- C10, amended: every React icon component renders a single `svg`
element wrapping that component's fixed child markup — a single fixed path
for most components (IcWarning, IcKeyboardArrowRight), three circles for
IcBubbleChart, two paths for IcBorderColor, a group holding a circle and a
path for IcFiberSmartRecord — with the default attributes `width=24`,
`height=24`, `viewBox="0 0 24 24"`; because the caller's props are spread
after the defaults, caller-supplied `width`/`height` values override the
24-pixel defaults, while with no caller override the defaults stand and
the `viewBox` default and the child markup stay fixed. -/
theorem c10_amended_fixed_markup (props : List (List Char × RVal))
    (hnd : (props.map Prod.fst).Nodup) :
    ((lookupAssoc props ("width").data = none →
        lookupAssoc (jsxMergeProps svgDefaultAttrs props) ("width").data
          = some (RVal.nat 24))
      ∧ (∀ v, lookupAssoc props ("width").data = some v →
          lookupAssoc (jsxMergeProps svgDefaultAttrs props) ("width").data = some v)
      ∧ (lookupAssoc props ("height").data = none →
          lookupAssoc (jsxMergeProps svgDefaultAttrs props) ("height").data
            = some (RVal.nat 24))
      ∧ (∀ v, lookupAssoc props ("height").data = some v →
          lookupAssoc (jsxMergeProps svgDefaultAttrs props) ("height").data = some v)
      ∧ (lookupAssoc props ("viewBox").data = none →
          lookupAssoc (jsxMergeProps svgDefaultAttrs props) ("viewBox").data
            = some (RVal.str ("0 0 24 24").data)))
    ∧ ((IcWarning props).tag = ("svg").data
      ∧ (IcWarning props).attrs = jsxMergeProps svgDefaultAttrs props
      ∧ (IcWarning props).children = icWarningChildren)
    ∧ ((IcKeyboardArrowRight props).tag = ("svg").data
      ∧ (IcKeyboardArrowRight props).attrs = jsxMergeProps svgDefaultAttrs props
      ∧ (IcKeyboardArrowRight props).children = icKeyboardArrowRightChildren)
    ∧ ((IcBubbleChart props).tag = ("svg").data
      ∧ (IcBubbleChart props).attrs = jsxMergeProps svgDefaultAttrs props
      ∧ (IcBubbleChart props).children = icBubbleChartChildren)
    ∧ ((IcBorderColor props).tag = ("svg").data
      ∧ (IcBorderColor props).attrs = jsxMergeProps svgDefaultAttrs props
      ∧ (IcBorderColor props).children = icBorderColorChildren)
    ∧ ((IcFiberSmartRecord props).tag = ("svg").data
      ∧ (IcFiberSmartRecord props).attrs = jsxMergeProps svgDefaultAttrs props
      ∧ (IcFiberSmartRecord props).children = icFiberSmartRecordChildren) := by
  have hmerge := fun key => lookup_jsxMergeProps key props svgDefaultAttrs hnd
  refine ⟨⟨?_, ?_, ?_, ?_, ?_⟩, ⟨rfl, rfl, rfl⟩, ⟨rfl, rfl, rfl⟩,
    ⟨rfl, rfl, rfl⟩, ⟨rfl, rfl, rfl⟩, ⟨rfl, rfl, rfl⟩⟩ <;>
    first
    | (intro h
       rw [hmerge, h]
       decide)
    | (intro v h
       rw [hmerge, h])

/-- C10, counterexample to the claim as stated: not every component wraps a
single fixed path. `IcBubbleChart` renders three `circle` children and no
`path`, `IcBorderColor` renders two paths, and `IcFiberSmartRecord`
renders one `g` child. -/
theorem c10_not_single_path_cex :
    (IcBubbleChart []).tag = ("svg").data
    ∧ (IcBubbleChart []).children.length = 3
    ∧ (IcBubbleChart []).children.all
        (fun n => rnodeTag n == ("circle").data) = true
    ∧ (IcBubbleChart []).children.all
        (fun n => rnodeTag n == ("path").data) = false
    ∧ (IcBorderColor []).children.length = 2
    ∧ (IcFiberSmartRecord []).children.all
        (fun n => rnodeTag n == ("g").data) = true
    ∧ (IcFiberSmartRecord []).children.length = 1 := by
  decide

/-- C10, witness: a caller-supplied `width` of 48 overrides the default
while `viewBox` keeps its fixed value, and with no caller props the
defaults stand and IcBubbleChart's children are its fixed circles. -/
theorem c10_witness :
    lookupAssoc (IcWarning [(("width").data, RVal.nat 48)]).attrs ("width").data
      = some (RVal.nat 48)
    ∧ lookupAssoc (IcWarning [(("width").data, RVal.nat 48)]).attrs
        ("viewBox").data = some (RVal.str ("0 0 24 24").data)
    ∧ lookupAssoc (IcBubbleChart []).attrs ("width").data = some (RVal.nat 24)
    ∧ (IcBubbleChart []).children = icBubbleChartChildren := by
  have h := c10_amended_fixed_markup [(("width").data, RVal.nat 48)] (by decide)
  have h0 := c10_amended_fixed_markup [] (by decide)
  exact ⟨h.1.2.1 (RVal.nat 48) (by decide), h.1.2.2.2.2 (by decide),
    h0.1.1 (by decide), h0.2.2.2.1.2.2⟩

/-! ## Claim C3: generic pipeline lemmas

The amended C3 compares the gulp converter's `titleize(humanize(name))`
with the spec's pipeline on identifiers of the grammar `word(_word)*`
(nonempty words of lowercase letters and digits); both sides evaluate to
the space-join of the capitalized words. -/

theorem dropWhile_eq_self_of_all {p : Char → Bool} :
    ∀ s : List Char, (∀ c ∈ s, p c = false) → s.dropWhile p = s
  | [], _ => rfl
  | c :: rest, h => by
    rw [List.dropWhile_cons, h c (List.mem_cons_self c rest)]
    simp [dropWhile_eq_self_of_all rest (fun c hc => h c (List.mem_cons_of_mem _ hc))]

theorem map_eq_self_of {f : Char → Char} :
    ∀ s : List Char, (∀ c ∈ s, f c = c) → s.map f = s
  | [], _ => rfl
  | c :: rest, h => by
    rw [List.map_cons, h c (List.mem_cons_self c rest),
      map_eq_self_of rest (fun c hc => h c (List.mem_cons_of_mem _ hc))]

theorem jsTrim_eq_self_of_all (s : List Char) (h : ∀ c ∈ s, isJsWS c = false) :
    jsTrim s = s := by
  rw [jsTrim, dropWhile_eq_self_of_all s h,
    dropWhile_eq_self_of_all s.reverse (fun c hc => h c (List.mem_reverse.mp hc)),
    List.reverse_reverse]

theorem sepCamel_eq_self : ∀ s : List Char, (∀ c ∈ s, isUpperAZ c = false) →
    sepCamel s = s
  | [], _ => rfl
  | [c], _ => rfl
  | c :: d :: rest, h => by
    have hd : isUpperAZ d = false := h d (by simp)
    show sepCamel (c :: d :: rest) = c :: d :: rest
    rw [sepCamel, hd]
    simp only [Bool.and_false, Bool.false_eq_true, if_false]
    rw [sepCamel_eq_self (d :: rest) (fun c hc => h c (List.mem_cons_of_mem _ hc))]

theorem collapseRunsAux_eq_self {p : Char → Bool} {r : Char} :
    ∀ s : List Char, (∀ c ∈ s, p c = false) → collapseRunsAux p r false s = s
  | [], _ => rfl
  | c :: rest, h => by
    rw [collapseRunsAux, h c (List.mem_cons_self c rest)]
    simp only [Bool.false_eq_true, if_false]
    rw [collapseRunsAux_eq_self rest (fun c hc => h c (List.mem_cons_of_mem _ hc))]

theorem collapseRuns_eq_self {p : Char → Bool} {r : Char} (s : List Char)
    (h : ∀ c ∈ s, p c = false) : collapseRuns p r s = s :=
  collapseRunsAux_eq_self s h

theorem underscored_eq_self (s : List Char)
    (hws : ∀ c ∈ s, isJsWS c = false)
    (hup : ∀ c ∈ s, isUpperAZ c = false)
    (hd : ∀ c ∈ s, isDashWS c = false) :
    underscored s = s := by
  rw [underscored, jsTrim_eq_self_of_all s hws, sepCamel_eq_self s hup,
    collapseRuns_eq_self s hd, map_eq_self_of s (fun c hc => toLowerCh_eq_self (hup c hc))]

/-! ### joinSep lemmas -/

theorem mem_joinSep {sep : Char} :
    ∀ (ws : List (List Char)) (c : Char), c ∈ joinSep sep ws →
      c = sep ∨ ∃ w ∈ ws, c ∈ w
  | [], c, h => absurd h (List.not_mem_nil c)
  | [w], c, h => Or.inr ⟨w, List.mem_cons_self w [], h⟩
  | w :: x :: rest, c, h => by
    have h2 : c ∈ w ++ sep :: joinSep sep (x :: rest) := h
    rcases List.mem_append.mp h2 with h3 | h3
    · exact Or.inr ⟨w, List.mem_cons_self w _, h3⟩
    · rcases List.mem_cons.mp h3 with h4 | h4
      · exact Or.inl h4
      · rcases mem_joinSep (x :: rest) c h4 with h5 | ⟨w', hw', hc⟩
        · exact Or.inl h5
        · exact Or.inr ⟨w', List.mem_cons_of_mem _ hw', hc⟩

theorem joinSep_append_last (sep : Char) :
    ∀ (ws : List (List Char)) (w : List Char), ws ≠ [] →
      joinSep sep (ws ++ [w]) = joinSep sep ws ++ sep :: w
  | [], w, h => absurd rfl h
  | [x], w, _ => rfl
  | x :: y :: rest, w, _ => by
    show x ++ sep :: joinSep sep ((y :: rest) ++ [w])
      = (x ++ sep :: joinSep sep (y :: rest)) ++ sep :: w
    rw [joinSep_append_last sep (y :: rest) w (by simp)]
    simp

theorem reverse_joinSep (sep : Char) :
    ∀ ws : List (List Char),
      (joinSep sep ws).reverse = joinSep sep ((ws.map List.reverse).reverse)
  | [] => rfl
  | [w] => rfl
  | w :: x :: rest => by
    have hne : ((x :: rest).map List.reverse).reverse ≠ [] := by simp
    have h1 : (List.map List.reverse (w :: x :: rest)).reverse
        = ((x :: rest).map List.reverse).reverse ++ [w.reverse] := by
      rw [List.map_cons, List.reverse_cons]
    show (w ++ sep :: joinSep sep (x :: rest)).reverse
      = joinSep sep ((List.map List.reverse (w :: x :: rest)).reverse)
    rw [h1, joinSep_append_last sep _ w.reverse hne, ← reverse_joinSep sep (x :: rest)]
    rw [List.reverse_append, List.reverse_cons]
    simp

theorem dropWhile_joinSep_space :
    ∀ ws : List (List Char),
      (∀ w ∈ ws, w ≠ [] ∧ ∀ c ∈ w, isLowerDigit c = true) →
      (joinSep ' ' ws).dropWhile isJsWS = joinSep ' ' ws
  | [], _ => rfl
  | w :: rest, h => by
    obtain ⟨hne, hchars⟩ := h w (List.mem_cons_self w rest)
    obtain ⟨c, w', rfl⟩ := List.exists_cons_of_ne_nil hne
    have hc : isJsWS c = false :=
      isJsWS_eq_false_of_lowerDigit (hchars c (List.mem_cons_self c w'))
    cases rest with
    | nil =>
      show List.dropWhile isJsWS (c :: w') = c :: w'
      rw [List.dropWhile_cons, hc]
      simp
    | cons x rest' =>
      show List.dropWhile isJsWS (c :: (w' ++ ' ' :: joinSep ' ' (x :: rest')))
        = c :: (w' ++ ' ' :: joinSep ' ' (x :: rest'))
      rw [List.dropWhile_cons, hc]
      simp

theorem jsTrim_joinSep_space (ws : List (List Char))
    (h : ∀ w ∈ ws, w ≠ [] ∧ ∀ c ∈ w, isLowerDigit c = true) :
    jsTrim (joinSep ' ' ws) = joinSep ' ' ws := by
  have hrev : ∀ w ∈ (ws.map List.reverse).reverse,
      w ≠ [] ∧ ∀ c ∈ w, isLowerDigit c = true := by
    intro w hw
    rw [List.mem_reverse, List.mem_map] at hw
    obtain ⟨w0, hw0, rfl⟩ := hw
    obtain ⟨hne, hchars⟩ := h w0 hw0
    exact ⟨by simpa using hne, fun c hc => hchars c (List.mem_reverse.mp hc)⟩
  rw [jsTrim, dropWhile_joinSep_space ws h, reverse_joinSep ' ' ws,
    dropWhile_joinSep_space _ hrev, ← reverse_joinSep ' ' ws, List.reverse_reverse]

/-! ### titleScan lemmas -/

theorem titleScan_append_words :
    ∀ (w r : List Char), (∀ c ∈ w, isLowerDigit c = true) →
      titleScan (w ++ r) = w ++ titleScan r
  | [], r, _ => rfl
  | c :: w, r, h => by
    have hc := h c (List.mem_cons_self c w)
    have h1 : isJsWS c = false := isJsWS_eq_false_of_lowerDigit hc
    have h2 : (c == '-') = false := beq_dash_eq_false_of_lowerDigit hc
    have hrec := titleScan_append_words w r (fun d hd => h d (List.mem_cons_of_mem _ hd))
    have key : titleScan (c :: (w ++ r)) = c :: titleScan (w ++ r) := by
      rw [titleScan.eq_def]
      simp only [h1, h2, Bool.or_self, Bool.false_eq_true, if_false]
    calc titleScan ((c :: w) ++ r) = titleScan (c :: (w ++ r)) := by rw [List.cons_append]
    _ = c :: titleScan (w ++ r) := key
    _ = c :: (w ++ titleScan r) := by rw [hrec]
    _ = (c :: w) ++ titleScan r := by rw [List.cons_append]

theorem titleScan_words (w : List Char) (h : ∀ c ∈ w, isLowerDigit c = true) :
    titleScan w = w := by
  have h1 := titleScan_append_words w [] h
  rw [List.append_nil, show titleScan [] = [] from rfl, List.append_nil] at h1
  exact h1

theorem titleScan_space_cons (c : Char) (r : List Char) (h : isJsWS c = false) :
    titleScan (' ' :: c :: r) = ' ' :: toUpperCh c :: titleScan r := by
  rw [titleScan]
  simp only [show isJsWS ' ' = true from rfl, Bool.true_or, if_true, h]
  simp

theorem titleScan_space_joinSep :
    ∀ ws : List (List Char),
      (∀ w ∈ ws, w ≠ [] ∧ ∀ c ∈ w, isLowerDigit c = true) → ws ≠ [] →
      titleScan (' ' :: joinSep ' ' ws) = ' ' :: joinSep ' ' (ws.map capitalizeUS)
  | [], _, hne => absurd rfl hne
  | [w], h, _ => by
    obtain ⟨hne, hchars⟩ := h w (List.mem_cons_self w [])
    obtain ⟨c, w', rfl⟩ := List.exists_cons_of_ne_nil hne
    have hc := hchars c (List.mem_cons_self c w')
    show titleScan (' ' :: c :: w') = ' ' :: capitalizeUS (c :: w')
    rw [titleScan_space_cons c w' (isJsWS_eq_false_of_lowerDigit hc),
      titleScan_words w' (fun d hd => hchars d (List.mem_cons_of_mem _ hd))]
    rfl
  | w :: x :: rest, h, _ => by
    obtain ⟨hne, hchars⟩ := h w (List.mem_cons_self w _)
    obtain ⟨c, w', rfl⟩ := List.exists_cons_of_ne_nil hne
    have hc := hchars c (List.mem_cons_self c w')
    have hrest : ∀ w ∈ x :: rest, w ≠ [] ∧ ∀ c ∈ w, isLowerDigit c = true :=
      fun w hw => h w (List.mem_cons_of_mem _ hw)
    show titleScan (' ' :: (c :: w') ++ ' ' :: joinSep ' ' (x :: rest))
      = ' ' :: joinSep ' ' (capitalizeUS (c :: w') :: (x :: rest).map capitalizeUS)
    rw [show (' ' :: (c :: w') ++ ' ' :: joinSep ' ' (x :: rest))
        = ' ' :: c :: (w' ++ ' ' :: joinSep ' ' (x :: rest)) from rfl]
    rw [titleScan_space_cons c _ (isJsWS_eq_false_of_lowerDigit hc),
      titleScan_append_words w' _ (fun d hd => hchars d (List.mem_cons_of_mem _ hd)),
      titleScan_space_joinSep (x :: rest) hrest (by simp)]
    rfl

/-- The chars of a space-join of lower/digit words are lower/digit or `' '`. -/
theorem mem_joinSep_space_lowerDigit (ws : List (List Char))
    (h : ∀ w ∈ ws, w ≠ [] ∧ ∀ c ∈ w, isLowerDigit c = true) :
    ∀ c ∈ joinSep ' ' ws, isLowerDigit c = true ∨ c = ' ' := by
  intro c hc
  rcases mem_joinSep ws c hc with h1 | ⟨w, hw, hcw⟩
  · exact Or.inr h1
  · exact Or.inl ((h w hw).2 c hcw)

theorem titleize_capitalize_joinSep (ws : List (List Char))
    (h : ∀ w ∈ ws, w ≠ [] ∧ ∀ c ∈ w, isLowerDigit c = true) (hne : ws ≠ []) :
    titleize (capitalizeUS (joinSep ' ' ws)) = joinSep ' ' (ws.map capitalizeUS) := by
  obtain ⟨w, rest, rfl⟩ := List.exists_cons_of_ne_nil hne
  obtain ⟨hwne, hchars⟩ := h w (List.mem_cons_self w rest)
  obtain ⟨c, w', rfl⟩ := List.exists_cons_of_ne_nil hwne
  have hc := hchars c (List.mem_cons_self c w')
  have hcup : isUpperAZ c = false := isUpperAZ_eq_false_of_lowerDigit hc
  -- the join of (c :: w') :: rest is c :: T for the evident tail T
  have hlowT : ∀ d ∈ joinSep ' ' ((c :: w') :: rest), isUpperAZ d = false := by
    intro d hd
    rcases mem_joinSep_space_lowerDigit _ h d hd with h1 | rfl
    · exact isUpperAZ_eq_false_of_lowerDigit h1
    · rfl
  cases rest with
  | nil =>
    show titleize (toUpperCh c :: w') = capitalizeUS (c :: w')
    rw [titleize, List.map_cons, toLowerCh_toUpperCh, toLowerCh_eq_self hcup,
      map_eq_self_of w' (fun d hd => toLowerCh_eq_self
        (hlowT d (List.mem_cons_of_mem _ hd)))]
    simp only [isJsWS_eq_false_of_lowerDigit hc, Bool.false_eq_true, if_false]
    rw [titleScan_words w' (fun d hd => hchars d (List.mem_cons_of_mem _ hd))]
    rfl
  | cons x rest' =>
    have hrest : ∀ w ∈ x :: rest', w ≠ [] ∧ ∀ c ∈ w, isLowerDigit c = true :=
      fun w hw => h w (List.mem_cons_of_mem _ hw)
    show titleize (toUpperCh c :: (w' ++ ' ' :: joinSep ' ' (x :: rest')))
      = capitalizeUS (c :: w') ++ ' ' :: joinSep ' ' ((x :: rest').map capitalizeUS)
    have hmap : List.map toLowerCh (w' ++ ' ' :: joinSep ' ' (x :: rest'))
        = w' ++ ' ' :: joinSep ' ' (x :: rest') :=
      map_eq_self_of _ (fun d hd => toLowerCh_eq_self
        (hlowT d (List.mem_cons_of_mem _ hd)))
    rw [titleize, List.map_cons, toLowerCh_toUpperCh, toLowerCh_eq_self hcup, hmap]
    simp only [isJsWS_eq_false_of_lowerDigit hc, Bool.false_eq_true, if_false]
    rw [titleScan_append_words w' _ (fun d hd => hchars d (List.mem_cons_of_mem _ hd)),
      titleScan_space_joinSep (x :: rest') hrest (by simp)]
    rfl

/-! ### Underscore replacement and run collapse over the join -/

theorem map_underscore_joinSep :
    ∀ ws : List (List Char),
      (∀ w ∈ ws, ∀ c ∈ w, isLowerDigit c = true) →
      (joinSep '_' ws).map (fun c => if c == '_' then ' ' else c) = joinSep ' ' ws
  | [], _ => rfl
  | [w], h => by
    show w.map (fun c => if c == '_' then ' ' else c) = w
    exact map_eq_self_of w (fun c hc => by
      rw [beq_underscore_eq_false_of_lowerDigit (h w (List.mem_cons_self w []) c hc)]
      simp)
  | w :: x :: rest, h => by
    have hw := h w (List.mem_cons_self w _)
    have hrest : ∀ w ∈ x :: rest, ∀ c ∈ w, isLowerDigit c = true :=
      fun w hw => h w (List.mem_cons_of_mem _ hw)
    show (w ++ '_' :: joinSep '_' (x :: rest)).map (fun c => if c == '_' then ' ' else c)
      = w ++ ' ' :: joinSep ' ' (x :: rest)
    rw [List.map_append, List.map_cons,
      map_eq_self_of w (fun c hc => by rw [beq_underscore_eq_false_of_lowerDigit (hw c hc)]; simp),
      map_underscore_joinSep (x :: rest) hrest]
    rfl

theorem collapseRunsAux_append_clean {p : Char → Bool} {r : Char} :
    ∀ (w t : List Char), (∀ c ∈ w, p c = false) →
      collapseRunsAux p r false (w ++ t) = w ++ collapseRunsAux p r false t
  | [], t, _ => rfl
  | c :: w, t, h => by
    show collapseRunsAux p r false (c :: (w ++ t)) = c :: (w ++ collapseRunsAux p r false t)
    rw [collapseRunsAux, h c (List.mem_cons_self c w)]
    simp only [Bool.false_eq_true, if_false]
    rw [collapseRunsAux_append_clean w t (fun c hc => h c (List.mem_cons_of_mem _ hc))]

/-- Over a `_`-join of alphanumeric words, the non-alphanumeric-run collapse
turns each single underscore into a single space, in either scan state. -/
theorem collapseRuns_joinSep :
    ∀ ws : List (List Char),
      (∀ w ∈ ws, w ≠ [] ∧ ∀ c ∈ w, isLowerDigit c = true) →
      collapseRunsAux (fun c => !isAlphaNum c) ' ' false (joinSep '_' ws) = joinSep ' ' ws
      ∧ collapseRunsAux (fun c => !isAlphaNum c) ' ' true (joinSep '_' ws) = joinSep ' ' ws
  | [], _ => ⟨rfl, rfl⟩
  | [w], h => by
    obtain ⟨hne, hchars⟩ := h w (List.mem_cons_self w [])
    obtain ⟨c, w', rfl⟩ := List.exists_cons_of_ne_nil hne
    have hp : ∀ d ∈ c :: w', (!isAlphaNum d) = false := by
      intro d hd
      simp [isAlphaNum_eq_true_of_lowerDigit (hchars d hd)]
    refine ⟨collapseRunsAux_eq_self (c :: w') hp, ?_⟩
    show collapseRunsAux (fun c => !isAlphaNum c) ' ' true (c :: w') = c :: w'
    rw [collapseRunsAux, hp c (List.mem_cons_self c w')]
    simp only [Bool.false_eq_true, if_false]
    rw [collapseRunsAux_eq_self w' (fun d hd => hp d (List.mem_cons_of_mem _ hd))]
  | w :: x :: rest, h => by
    obtain ⟨hne, hchars⟩ := h w (List.mem_cons_self w _)
    obtain ⟨c, w', rfl⟩ := List.exists_cons_of_ne_nil hne
    have hrest : ∀ w ∈ x :: rest, w ≠ [] ∧ ∀ c ∈ w, isLowerDigit c = true :=
      fun w hw => h w (List.mem_cons_of_mem _ hw)
    have hp : ∀ d ∈ c :: w', (!isAlphaNum d) = false := by
      intro d hd
      simp [isAlphaNum_eq_true_of_lowerDigit (hchars d hd)]
    have hmid : collapseRunsAux (fun c => !isAlphaNum c) ' ' false
        ('_' :: joinSep '_' (x :: rest)) = ' ' :: joinSep ' ' (x :: rest) := by
      show ' ' :: collapseRunsAux (fun c => !isAlphaNum c) ' ' true (joinSep '_' (x :: rest))
        = ' ' :: joinSep ' ' (x :: rest)
      rw [(collapseRuns_joinSep (x :: rest) hrest).2]
    constructor
    · show collapseRunsAux (fun c => !isAlphaNum c) ' ' false
        ((c :: w') ++ '_' :: joinSep '_' (x :: rest))
        = (c :: w') ++ ' ' :: joinSep ' ' (x :: rest)
      rw [collapseRunsAux_append_clean (c :: w') _ hp, hmid]
    · show collapseRunsAux (fun c => !isAlphaNum c) ' ' true
        (c :: (w' ++ '_' :: joinSep '_' (x :: rest)))
        = (c :: w') ++ ' ' :: joinSep ' ' (x :: rest)
      rw [collapseRunsAux, hp c (List.mem_cons_self c w')]
      simp only [Bool.false_eq_true, if_false]
      rw [collapseRunsAux_append_clean w' _ (fun d hd => hp d (List.mem_cons_of_mem _ hd)),
        hmid]
      rfl

/-! ### capEachWord over the join -/

theorem capEachWordAux_append_words :
    ∀ (w t : List Char), (∀ c ∈ w, isLowerDigit c = true) →
      capEachWordAux false (w ++ t) = w ++ capEachWordAux false t
  | [], t, _ => rfl
  | c :: w, t, h => by
    have hc := h c (List.mem_cons_self c w)
    show capEachWordAux false (c :: (w ++ t)) = c :: (w ++ capEachWordAux false t)
    rw [capEachWordAux, beq_space_eq_false_of_lowerDigit hc]
    simp only [Bool.false_eq_true, if_false]
    rw [capEachWordAux_append_words w t (fun d hd => h d (List.mem_cons_of_mem _ hd))]

theorem capEachWordAux_words :
    ∀ w : List Char, (∀ c ∈ w, isLowerDigit c = true) → capEachWordAux false w = w
  | [], _ => rfl
  | c :: w, h => by
    rw [capEachWordAux, beq_space_eq_false_of_lowerDigit (h c (List.mem_cons_self c w))]
    simp only [Bool.false_eq_true, if_false]
    rw [capEachWordAux_words w (fun d hd => h d (List.mem_cons_of_mem _ hd))]

theorem capEachWord_joinSep :
    ∀ ws : List (List Char),
      (∀ w ∈ ws, w ≠ [] ∧ ∀ c ∈ w, isLowerDigit c = true) →
      capEachWordAux true (joinSep ' ' ws) = joinSep ' ' (ws.map capitalizeUS)
  | [], _ => rfl
  | [w], h => by
    obtain ⟨hne, hchars⟩ := h w (List.mem_cons_self w [])
    obtain ⟨c, w', rfl⟩ := List.exists_cons_of_ne_nil hne
    have hc := hchars c (List.mem_cons_self c w')
    show capEachWordAux true (c :: w') = capitalizeUS (c :: w')
    rw [capEachWordAux, beq_space_eq_false_of_lowerDigit hc]
    simp only [Bool.false_eq_true, if_false, if_true]
    rw [capEachWordAux_words w' (fun d hd => hchars d (List.mem_cons_of_mem _ hd))]
    rfl
  | w :: x :: rest, h => by
    obtain ⟨hne, hchars⟩ := h w (List.mem_cons_self w _)
    obtain ⟨c, w', rfl⟩ := List.exists_cons_of_ne_nil hne
    have hc := hchars c (List.mem_cons_self c w')
    have hrest : ∀ w ∈ x :: rest, w ≠ [] ∧ ∀ c ∈ w, isLowerDigit c = true :=
      fun w hw => h w (List.mem_cons_of_mem _ hw)
    show capEachWordAux true (c :: (w' ++ ' ' :: joinSep ' ' (x :: rest)))
      = capitalizeUS (c :: w') ++ ' ' :: joinSep ' ' ((x :: rest).map capitalizeUS)
    rw [capEachWordAux, beq_space_eq_false_of_lowerDigit hc]
    simp only [Bool.false_eq_true, if_false, if_true]
    rw [capEachWordAux_append_words w' _ (fun d hd => hchars d (List.mem_cons_of_mem _ hd))]
    have hsp : capEachWordAux false (' ' :: joinSep ' ' (x :: rest))
        = ' ' :: capEachWordAux true (joinSep ' ' (x :: rest)) := rfl
    rw [hsp, capEachWord_joinSep (x :: rest) hrest]
    rfl

/-! ### Assembling claim C3 -/

theorem goodWords_unpack (ws : List (List Char)) (h : goodWords ws = true) :
    ws ≠ [] ∧ ∀ w ∈ ws, w ≠ [] ∧ ∀ c ∈ w, isLowerDigit c = true := by
  simp only [goodWords, goodWord, Bool.and_eq_true, List.all_eq_true,
    Bool.not_eq_true'] at h
  obtain ⟨h1, h2⟩ := h
  constructor
  · intro he
    subst he
    simp at h1
  · intro w hw
    obtain ⟨h3, h4⟩ := h2 w hw
    refine ⟨?_, h4⟩
    intro he
    subst he
    simp at h3

theorem chars_joinSep_underscore (ws : List (List Char))
    (h : ∀ w ∈ ws, w ≠ [] ∧ ∀ c ∈ w, isLowerDigit c = true) :
    ∀ c ∈ joinSep '_' ws, isLowerDigit c = true ∨ c = '_' := by
  intro c hc
  rcases mem_joinSep ws c hc with h1 | ⟨w, hw, hcw⟩
  · exact Or.inr h1
  · exact Or.inl ((h w hw).2 c hcw)

theorem humanize_joinSep (ws : List (List Char))
    (h : ∀ w ∈ ws, w ≠ [] ∧ ∀ c ∈ w, isLowerDigit c = true)
    (hid : endsWithUid (joinSep '_' ws) = false) :
    humanize (joinSep '_' ws) = capitalizeUS (joinSep ' ' ws) := by
  have hchars := chars_joinSep_underscore ws h
  have hwsf : ∀ c ∈ joinSep '_' ws, isJsWS c = false := by
    intro c hc
    rcases hchars c hc with h1 | rfl
    · exact isJsWS_eq_false_of_lowerDigit h1
    · rfl
  have hupf : ∀ c ∈ joinSep '_' ws, isUpperAZ c = false := by
    intro c hc
    rcases hchars c hc with h1 | rfl
    · exact isUpperAZ_eq_false_of_lowerDigit h1
    · rfl
  have hdashf : ∀ c ∈ joinSep '_' ws, isDashWS c = false := by
    intro c hc
    rcases hchars c hc with h1 | rfl
    · exact isDashWS_eq_false_of_lowerDigit h1
    · rfl
  rw [humanize, underscored_eq_self _ hwsf hupf hdashf, dropSuffixId, hid]
  simp only [Bool.false_eq_true, if_false]
  rw [map_underscore_joinSep ws (fun w hw => (h w hw).2), jsTrim_joinSep_space ws h]

theorem specTitleName_joinSep (ws : List (List Char))
    (h : ∀ w ∈ ws, w ≠ [] ∧ ∀ c ∈ w, isLowerDigit c = true) :
    specTitleName (joinSep '_' ws) = joinSep ' ' (ws.map capitalizeUS) := by
  have hchars := chars_joinSep_underscore ws h
  have hupf : ∀ c ∈ joinSep '_' ws, isUpperAZ c = false := by
    intro c hc
    rcases hchars c hc with h1 | rfl
    · exact isUpperAZ_eq_false_of_lowerDigit h1
    · rfl
  have hmap : (joinSep '_' ws).map toLowerCh = joinSep '_' ws :=
    map_eq_self_of _ (fun c hc => toLowerCh_eq_self (hupf c hc))
  rw [specTitleName, hmap, collapseRuns, (collapseRuns_joinSep ws h).1,
    jsTrim_joinSep_space ws h, capEachWord_joinSep ws h]

/-- C3, amended: for every identifier of the grammar actually used by the
codepoint files — one or more nonempty words of lowercase letters and
digits joined by single underscores, not ending in `_id` — the gulp
converter's name `titleize(humanize(identifier))` equals the spec's
pipeline: lowercase, replace each run of non-alphanumeric characters with a
single space, trim, and capitalize the first character of each resulting
word. -/
theorem c3_amended_identifier_grammar (ws : List (List Char)) (s : List Char)
    (hs : s = joinSep '_' ws) (hws : goodWords ws = true)
    (hid : endsWithUid s = false) :
    titleizeHumanize s = specTitleName s := by
  subst hs
  obtain ⟨hne, h⟩ := goodWords_unpack ws hws
  rw [titleizeHumanize, humanize_joinSep ws h hid,
    titleize_capitalize_joinSep ws h hne, specTitleName_joinSep ws h]

/-- C3, counterexample to the claim as stated: on the identifier `a__b` the
converter's name keeps both spaces produced from the two underscores
(`A  B`), while the claimed algorithm collapses the run of non-alphanumeric
characters to a single space (`A B`). -/
theorem c3_nonalnum_run_cex :
    lookupAssoc (codepointsToIjmap ("a__b e001").data) (("e001").data)
        = some ⟨("A  B").data⟩
    ∧ specTitleName ("a__b").data = ("A B").data
    ∧ titleizeHumanize ("a__b").data ≠ specTitleName ("a__b").data := by
  decide

/-- C3, witness: on the identifier `ic_play_arrow` (three lowercase words
joined by single underscores) the converter's name agrees with the claimed
pipeline. -/
theorem c3_witness :
    goodWords [("ic").data, ("play").data, ("arrow").data] = true
    ∧ endsWithUid (("ic_play_arrow").data) = false
    ∧ titleizeHumanize (("ic_play_arrow").data)
        = specTitleName (("ic_play_arrow").data) :=
  ⟨by decide, by decide,
    c3_amended_identifier_grammar [("ic").data, ("play").data, ("arrow").data]
      (("ic_play_arrow").data) (by decide) (by decide) (by decide)⟩

end MD

